import Mathlib

/-!
# Offer engine (`services/engine/main.go`): rule cache, match & select, award sink

A shallow embedding of the engine's processing loop.

* `float64` is modelled by `F64`: NaN, the two infinities, and finite values
  `(-1)^neg * m * 2^e`.  Arithmetic (`mul`, `div`, `round`) computes the exact
  result and rounds it to the nearest binary64 value, ties to even, the way the
  hardware does; decimal literals and JSON numbers are rounded the same way.
* Calls that leave the process (`db.Exec`, `writer.WriteMessages`,
  `betReader.CommitMessages`, `log.Printf`, `time.Sleep`) are recorded as a
  trace of `Effect`s; what they return is supplied by an `Outcomes` record.
* `json.Marshal` of an `AwardEvent` fails exactly when one of its two `float64`
  fields is an infinity or NaN; the engine discards that error and writes the
  message with the empty value it got.
* The buffered channel `ruleCh` is a list (head = oldest element).
-/

/-! ## binary64 -/

/-- A `float64`.  `fin neg m e` is the finite value `(-1)^neg * m * 2^e`; the
operations below return finite values in the IEEE normal form
(`2^52 ≤ m < 2^53` and `-1074 ≤ e ≤ 971`, or `m < 2^52` and `e = -1074`, or
`m = 0` and `e = 0`). -/
inductive F64 where
  | nan : F64
  | inf (neg : Bool) : F64
  | fin (neg : Bool) (m : Nat) (e : Int) : F64
deriving DecidableEq, Repr

namespace F64

/-- Number of binary digits of `n` (the first argument is recursion fuel; `n`
itself always suffices). -/
def bitLen : Nat → Nat → Nat
  | 0, _ => 0
  | fuel + 1, n => if n = 0 then 0 else bitLen fuel (n / 2) + 1

/-- The integer `t` with `2^t ≤ n / d < 2^(t+1)`, for `n, d > 0`. -/
def floorLog2 (n d : Nat) : Int :=
  let t : Int := (bitLen n n : Int) - (bitLen d d : Int)
  if 0 ≤ t then (if d * 2 ^ t.toNat ≤ n then t else t - 1)
  else (if d ≤ n * 2 ^ (-t).toNat then t else t - 1)

/-- The integer nearest to `n / d`, ties to the even one. -/
def rne (n d : Nat) : Nat :=
  let q := n / d
  let r := n % d
  if 2 * r < d then q else if d < 2 * r then q + 1 else if q % 2 = 0 then q else q + 1

/-- The binary64 value nearest to `(-1)^neg * n / d` (round to nearest, ties to
even; overflow gives an infinity, underflow a subnormal or zero). -/
def roundRatio (neg : Bool) (n d : Nat) : F64 :=
  if n = 0 then fin neg 0 0 else
  let e := max (floorLog2 n d - 52) (-1074)
  let m := if 0 ≤ e then rne n (d * 2 ^ e.toNat) else rne (n * 2 ^ (-e).toNat) d
  let m1 := if m = 2 ^ 53 then 2 ^ 52 else m
  let e1 := if m = 2 ^ 53 then e + 1 else e
  if m1 = 0 then fin neg 0 0 else if 971 < e1 then inf neg else fin neg m1 e1

/-- The binary64 value nearest to `(-1)^neg * n * 2^e`. -/
def roundDyadic (neg : Bool) (n : Nat) (e : Int) : F64 :=
  if 0 ≤ e then roundRatio neg (n * 2 ^ e.toNat) 1 else roundRatio neg n (2 ^ (-e).toNat)

/-- The value `(-1)^neg * m * 2^e` as an integer multiple of `2^b`, for `b ≤ e`. -/
def scaled (neg : Bool) (m : Nat) (e b : Int) : Int :=
  if neg then -((m * 2 ^ (e - b).toNat : Nat) : Int) else ((m * 2 ^ (e - b).toNat : Nat) : Int)

/-- Go's `a < b` on `float64`: false as soon as one side is NaN; `-0` and `+0`
compare equal. -/
def lt : F64 → F64 → Bool
  | fin s1 m1 e1, fin s2 m2 e2 =>
      decide (scaled s1 m1 e1 (min e1 e2) < scaled s2 m2 e2 (min e1 e2))
  | fin _ _ _, inf n => !n
  | inf n, fin _ _ _ => n
  | inf a, inf b => a && !b
  | _, _ => false

/-- Go's `a <= b` on `float64`: false as soon as one side is NaN. -/
def le : F64 → F64 → Bool
  | fin s1 m1 e1, fin s2 m2 e2 =>
      decide (scaled s1 m1 e1 (min e1 e2) ≤ scaled s2 m2 e2 (min e1 e2))
  | fin _ _ _, inf n => !n
  | inf n, fin _ _ _ => n
  | inf a, inf b => a || !b
  | _, _ => false

/-- Go's `a > b`. -/
def gt (a b : F64) : Bool := lt b a

/-- Go's `a >= b`. -/
def ge (a b : F64) : Bool := le b a

/-- Whether the value is NaN. -/
def isNaN : F64 → Bool
  | nan => true
  | _ => false

/-- Whether the value is finite (neither an infinity nor NaN). -/
def isFinite : F64 → Bool
  | fin _ _ _ => true
  | _ => false

/-- Go's `a * b` on `float64`. -/
def mul : F64 → F64 → F64
  | fin s1 m1 e1, fin s2 m2 e2 => roundDyadic (xor s1 s2) (m1 * m2) (e1 + e2)
  | fin s1 m1 _, inf s2 => if m1 = 0 then nan else inf (xor s1 s2)
  | inf s1, fin s2 m2 _ => if m2 = 0 then nan else inf (xor s1 s2)
  | inf s1, inf s2 => inf (xor s1 s2)
  | _, _ => nan

/-- Go's `a / b` on `float64`. -/
def div : F64 → F64 → F64
  | fin s1 m1 e1, fin s2 m2 e2 =>
      if m2 = 0 then (if m1 = 0 then nan else inf (xor s1 s2))
      else if 0 ≤ e1 - e2 then roundRatio (xor s1 s2) (m1 * 2 ^ (e1 - e2).toNat) m2
      else roundRatio (xor s1 s2) m1 (m2 * 2 ^ (e2 - e1).toNat)
  | fin s1 _ _, inf s2 => fin (xor s1 s2) 0 0
  | inf s1, fin s2 _ _ => inf (xor s1 s2)
  | _, _ => nan

/-- Go's `math.Round`: the nearest integer, halves away from zero;
`Round(±0) = ±0`, `Round(±Inf) = ±Inf`, `Round(NaN) = NaN`. -/
def round : F64 → F64
  | fin s m e =>
      if 0 ≤ e then fin s m e
      else
        let p := 2 ^ (-e).toNat
        roundRatio s (if p ≤ 2 * (m % p) then m / p + 1 else m / p) 1
  | x => x

/-- The `float64` of a non-negative integer constant. -/
def ofNat (n : Nat) : F64 := roundRatio false n 1

/-- The `float64` a decimal numeral `(-1)^neg * n / d` is read as (Go constants,
`strconv.ParseFloat` and therefore `encoding/json`). -/
def ofDecimal (neg : Bool) (n d : Nat) : F64 := roundRatio neg n d

/-- The zero value of `float64`. -/
def zero : F64 := fin false 0 0

/-- The rational value of a finite `float64`. -/
def valQ (neg : Bool) (m : Nat) (e : Int) : ℚ :=
  (if neg then -(m : ℚ) else (m : ℚ)) * (2 : ℚ) ^ e

/-- Position of a non-NaN value on the extended line: `-inf`, finite, `+inf`,
then the value. -/
def key : F64 → Lex (ℤ × ℚ)
  | nan => toLex (0, 0)
  | inf neg => toLex (if neg then -1 else 1, 0)
  | fin s m e => toLex (0, valQ s m e)

end F64

/-- The engine's `round2`: `math.Round(v*100) / 100`. -/
def round2 (v : F64) : F64 :=
  F64.div (F64.round (F64.mul v (F64.ofNat 100))) (F64.ofNat 100)

/-! ## Data model (`main.go` lines 18-52) -/

/-- A cached rule: `type Offer struct`. -/
structure Offer where
  ID : Int
  MinStake : F64
  BonusPct : F64
  Active : Bool
deriving DecidableEq, Repr

/-- A decoded bet: `type BetPlaced struct`. -/
structure BetPlaced where
  EventID : String
  Ts : Int
  UserID : String
  Market : String
  Stake : F64
  Currency : String
deriving DecidableEq, Repr

/-- The anonymous struct of the `Rule` field of `RuleEvent`. -/
structure RuleData where
  ID : Int
  MinStake : F64
  BonusPct : F64
  Active : Bool
deriving DecidableEq, Repr

/-- A decoded rule update: `type RuleEvent struct` (`Typ` is the Go field `Type`). -/
structure RuleEvent where
  Typ : String
  Rule : RuleData
deriving DecidableEq, Repr

/-- The event written to the award topic: `type AwardEvent struct`. -/
structure AwardEvent where
  AwardID : String
  EventID : String
  UserID : String
  OfferID : Int
  Stake : F64
  BonusAmount : F64
  Ts : Int
deriving DecidableEq, Repr

/-- The `json.Marshal(evt)` of line 179.  The encoder returns an error for a
`float64` that is an infinity or NaN and encodes everything else; `some evt`
stands for the bytes that encode `evt`, `none` for the nil slice returned along
with an error. -/
def marshal (evt : AwardEvent) : Option AwardEvent :=
  if evt.Stake.isFinite && evt.BonusAmount.isFinite then some evt else none

/-- A fetched `kafka.Message`: where it sits in the log, and its payload. -/
structure Message where
  Partition : Int
  Offset : Int
  Value : String
deriving DecidableEq, Repr

/-- The calls the loop makes to the outside, in the order it makes them. -/
inductive Effect where
  /-- The `db.Exec` of line 165, with the arguments `$1 .. $6`. -/
  | dbExec (awardID eventID userID : String) (stake bonusAmount : F64) (offerID : Int)
  /-- The `writer.WriteMessages` of line 180, with the `Value` of the message:
  the encoding of an event, or nothing when `json.Marshal` returned an error. -/
  | writeMessages (value : Option AwardEvent)
  /-- A call of `betReader.CommitMessages` (lines 142 and 186). -/
  | commitMessages (m : Message)
  /-- A call of `log.Printf`, with the text before the colon. -/
  | logPrintf (what : String)
  /-- The `time.Sleep(time.Second)` of line 136. -/
  | sleep
  /-- The run-time failure of `offers[bestIdx]` with an index out of range. -/
  | indexOutOfRange
deriving DecidableEq, Repr

/-- What the outside returns during one pass of the loop. -/
structure Outcomes where
  /-- The result of `betReader.FetchMessage`. -/
  fetch : Except String Message
  /-- The result of `uuid.New().String()`. -/
  awardID : String
  /-- The error of `db.Exec`, if any. -/
  execErr : Option String
  /-- The result of `time.Now().UnixMilli()`. -/
  now : Int
  /-- The error of `writer.WriteMessages`, if any. -/
  writeErr : Option String
  /-- The error of the `betReader.CommitMessages` of line 186, if any. -/
  commitErr : Option String

/-- The state the loop carries from one pass to the next: the slice `offers`
and the content of the channel `ruleCh`, oldest element first. -/
structure Engine where
  offers : List Offer
  ruleCh : List RuleEvent
deriving DecidableEq, Repr

/-- The capacity of `ruleCh` (line 94). -/
def ruleChCap : Nat := 16

/-! ## Rule cache (lines 115-129) -/

/-- The search loop of lines 118-126: the first entry whose `ID` is the event's
gets the event's `MinStake`, `BonusPct` and `Active`, and the loop stops; the
flag is `found`. -/
def upsertLoop (re : RuleEvent) : List Offer → List Offer × Bool
  | [] => ([], false)
  | o :: os =>
      if o.ID = re.Rule.ID then
        ({ o with MinStake := re.Rule.MinStake, BonusPct := re.Rule.BonusPct,
                  Active := re.Rule.Active } :: os, true)
      else
        (o :: (upsertLoop re os).1, (upsertLoop re os).2)

/-- The body of `case re := <-ruleCh` (lines 116-129). -/
def upsert (offers : List Offer) (re : RuleEvent) : List Offer :=
  if !(upsertLoop re offers).2 then
    (upsertLoop re offers).1 ++
      [{ ID := re.Rule.ID, MinStake := re.Rule.MinStake, BonusPct := re.Rule.BonusPct,
         Active := re.Rule.Active }]
  else
    (upsertLoop re offers).1

/-- The `select` of lines 114-131: receive one event if the channel holds one,
otherwise take the `default` branch. -/
def selectRule (st : Engine) : Engine :=
  match st.ruleCh with
  | [] => st
  | re :: rest => { offers := upsert st.offers re, ruleCh := rest }

/-! ## Match & select (lines 146-159) -/

/-- The loop of lines 149-159 over the entries from index `i` on, from the
current `(bestIdx, bestAmt)`. -/
def matchLoop (stake : F64) : List Offer → Nat → Int × F64 → Int × F64
  | [], _, best => best
  | o :: os, i, best =>
      if !o.Active || F64.lt stake o.MinStake then matchLoop stake os (i + 1) best
      else if F64.gt (round2 (F64.mul stake o.BonusPct)) best.2 then
        matchLoop stake os (i + 1) ((i : Int), round2 (F64.mul stake o.BonusPct))
      else matchLoop stake os (i + 1) best

/-- Lines 147-159: `bestIdx := -1`, `var bestAmt float64`, then the loop. -/
def matchSelect (offers : List Offer) (bet : BetPlaced) : Int × F64 :=
  matchLoop bet.Stake offers 0 (-1, F64.zero)

/-! ## Award sink and commit (lines 139-188) -/

/-- Lines 162-183, entered with `bestIdx >= 0 && bestAmt > 0`.  The error of
`json.Marshal` is discarded (`b, _ :=`), so the message is written either way. -/
def awardSink (offers : List Offer) (bet : BetPlaced) (bestIdx : Int) (bestAmt : F64)
    (out : Outcomes) : List Effect :=
  match offers[bestIdx.toNat]? with
  | none => [Effect.indexOutOfRange]
  | some best =>
      Effect.dbExec out.awardID bet.EventID bet.UserID bet.Stake bestAmt best.ID ::
        (match out.execErr with
         | some _ => [Effect.logPrintf "award insert"]
         | none =>
             Effect.writeMessages
                 (marshal
                   { AwardID := out.awardID, EventID := bet.EventID, UserID := bet.UserID,
                     OfferID := best.ID, Stake := bet.Stake, BonusAmount := bestAmt,
                     Ts := out.now }) ::
               (match out.writeErr with
                | some _ => [Effect.logPrintf "produce award"]
                | none => []))

/-- Lines 139-188: what the loop does with a fetched message.  `unmarshal` is
`json.Unmarshal` into a `BetPlaced` (`none` when it returns an error). -/
def handleMessage (unmarshal : String → Option BetPlaced) (offers : List Offer) (m : Message)
    (out : Outcomes) : List Effect :=
  match unmarshal m.Value with
  | none => [Effect.logPrintf "bet unmarshal", Effect.commitMessages m]
  | some bet =>
      (if decide (0 ≤ (matchSelect offers bet).1) && F64.gt (matchSelect offers bet).2 F64.zero then
          awardSink offers bet (matchSelect offers bet).1 (matchSelect offers bet).2 out
        else []) ++
        Effect.commitMessages m ::
          (match out.commitErr with
           | some _ => [Effect.logPrintf "commit error"]
           | none => [])

/-- One pass of the `for` loop (lines 113-189): the new state and the calls made. -/
def iteration (unmarshal : String → Option BetPlaced) (st : Engine) (out : Outcomes) :
    Engine × List Effect :=
  match out.fetch with
  | Except.error _ => (selectRule st, [Effect.logPrintf "bet reader error", Effect.sleep])
  | Except.ok m => (selectRule st, handleMessage unmarshal (selectRule st).offers m out)

/-! ## The durable award store -/

/-- A row of the `awards` table, in the column order of the `INSERT` of line 165. -/
structure AwardRow where
  id : String
  event_id : String
  user_id : String
  stake : F64
  bonus_amount : F64
  offer_id : Int
deriving DecidableEq, Repr

/-- Modelled from the spec: the durable award store.  The `awards` table and its
unique constraint on `event_id` are not part of the source files; following
section 4.5 ("insert-if-absent semantics: a conflicting eventId is silently
ignored, not an error") and the `ON CONFLICT (event_id) DO NOTHING` of the
statement, an insert adds the row unless a row with that `event_id` exists. -/
def insertAwardIfAbsent (store : List AwardRow) (row : AwardRow) : List AwardRow :=
  if store.any (fun r => r.event_id == row.event_id) then store else store ++ [row]

/-- The store after the calls of one pass: a `db.Exec` that returned no error
has run the insert, one that returned an error has left the store as it was. -/
def storeAfter (out : Outcomes) (store : List AwardRow) : List Effect → List AwardRow
  | [] => store
  | Effect.dbExec a e u s b o :: rest =>
      storeAfter out
        (match out.execErr with
         | some _ => store
         | none => insertAwardIfAbsent store
             { id := a, event_id := e, user_id := u, stake := s, bonus_amount := b, offer_id := o })
        rest
  | _ :: rest => storeAfter out store rest

/-- The message values handed to `writer.WriteMessages`, in order: one entry
for every call. -/
def writes : List Effect → List (Option AwardEvent)
  | [] => []
  | Effect.writeMessages v :: rest => v :: writes rest
  | _ :: rest => writes rest

/-- The award events handed to `writer.WriteMessages`, in order: the values of
`writes` that encode an event. -/
def eventsWritten (tr : List Effect) : List AwardEvent :=
  (writes tr).filterMap id

/-- The award events published in a pass: those handed to
`writer.WriteMessages` when that call returned no error. -/
def published (out : Outcomes) (tr : List Effect) : List AwardEvent :=
  match out.writeErr with
  | some _ => []
  | none => eventsWritten tr

/-- The rows handed to `db.Exec`, in order. -/
def insertsAttempted : List Effect → List AwardRow
  | [] => []
  | Effect.dbExec a e u s b o :: rest =>
      { id := a, event_id := e, user_id := u, stake := s, bonus_amount := b, offer_id := o } ::
        insertsAttempted rest
  | _ :: rest => insertsAttempted rest

/-- The messages handed to `betReader.CommitMessages`, in order. -/
def commits : List Effect → List Message
  | [] => []
  | Effect.commitMessages m :: rest => m :: commits rest
  | _ :: rest => commits rest

/-- One delivery of a bet message: the cache it is matched against, the message,
and what the outside returns while it is handled. -/
structure Delivery where
  offers : List Offer
  m : Message
  out : Outcomes

/-- The store and the trace after one more delivery has been handled. -/
def deliver (unmarshal : String → Option BetPlaced) (w : List AwardRow × List Effect)
    (d : Delivery) : List AwardRow × List Effect :=
  (storeAfter d.out w.1 (handleMessage unmarshal d.offers d.m d.out),
   w.2 ++ handleMessage unmarshal d.offers d.m d.out)

/-- The store and the trace after a sequence of deliveries. -/
def deliverAll (unmarshal : String → Option BetPlaced) (store : List AwardRow)
    (ds : List Delivery) : List AwardRow × List Effect :=
  ds.foldl (deliver unmarshal) (store, [])

/-- The award events published over a sequence of deliveries. -/
def publishedAll (unmarshal : String → Option BetPlaced) : List Delivery → List AwardEvent
  | [] => []
  | d :: ds =>
      published d.out (handleMessage unmarshal d.offers d.m d.out) ++ publishedAll unmarshal ds

/-! ## Vocabulary of the statements -/

/-- The rounded bonus of a rule for a stake: `round2(stake * bonusPct)`. -/
def bonusOf (stake : F64) (o : Offer) : F64 := round2 (F64.mul stake o.BonusPct)

/-- A rule qualifies for a stake: it is active, `stake >= minStake`, and its
rounded bonus is `> 0`. -/
def Qualifies (stake : F64) (o : Offer) : Prop :=
  o.Active = true ∧ F64.ge stake o.MinStake = true ∧ F64.gt (bonusOf stake o) F64.zero = true

/-- The cache after a sequence of rule events has been applied in order. -/
def applyRules (offers : List Offer) (evs : List RuleEvent) : List Offer :=
  evs.foldl upsert offers

/-- The ids of a cache are pairwise distinct. -/
def DistinctIds (offers : List Offer) : Prop :=
  offers.Pairwise (fun a b => a.ID ≠ b.ID)

/-- The cache entry a rule event describes: its `id`, `minStake`, `bonusPct`
and `active`. -/
def offerOf (re : RuleEvent) : Offer :=
  { ID := re.Rule.ID, MinStake := re.Rule.MinStake, BonusPct := re.Rule.BonusPct,
    Active := re.Rule.Active }

/-- The test the loop itself makes before it computes a bonus (line 151): the
rule is active and `stake < minStake` is false. -/
def Passes (stake : F64) (o : Offer) : Prop :=
  o.Active = true ∧ F64.lt stake o.MinStake = false

/-- What holds of `(bestIdx, bestAmt)` once the loop has gone through `l`:
either nothing was taken, or the entry at `bestIdx` was, and no later entry has a
greater bonus and every earlier one has a smaller bonus. -/
def MatchInv (stake : F64) (l : List Offer) (r : Int × F64) : Prop :=
  (r = (-1, F64.zero) ∧
      ∀ o ∈ l, Passes stake o → F64.gt (bonusOf stake o) F64.zero = false) ∨
  (∃ (k : Nat) (o : Offer), r = ((k : Int), bonusOf stake o) ∧ l[k]? = some o ∧ Passes stake o ∧
      F64.gt (bonusOf stake o) F64.zero = true ∧
      ∀ (j : Nat) (p : Offer), l[j]? = some p → Passes stake p → F64.gt (bonusOf stake p) F64.zero = true →
        F64.lt (bonusOf stake o) (bonusOf stake p) = false ∧
        (j < k → F64.lt (bonusOf stake p) (bonusOf stake o) = true))

instance instDecidableQualifies (stake : F64) (o : Offer) : Decidable (Qualifies stake o) := by
  unfold Qualifies
  infer_instance

/-! ## Concrete data used to exercise the statements -/

/-- Rule `{id 1, minStake 10, bonusPct 0.10, active}`. -/
def exRule10 : Offer :=
  { ID := 1, MinStake := F64.ofNat 10, BonusPct := F64.ofDecimal false 10 100, Active := true }

/-- Rule `{id 1, minStake 10, bonusPct 0.05, active}`. -/
def exRuleA : Offer :=
  { ID := 1, MinStake := F64.ofNat 10, BonusPct := F64.ofDecimal false 5 100, Active := true }

/-- Rule `{id 2, minStake 20, bonusPct 0.05, active}`. -/
def exRuleB : Offer :=
  { ID := 2, MinStake := F64.ofNat 20, BonusPct := F64.ofDecimal false 5 100, Active := true }

/-- Rule `{id 3, minStake 10, bonusPct 0.10, active}`. -/
def exRuleC : Offer :=
  { ID := 3, MinStake := F64.ofNat 10, BonusPct := F64.ofDecimal false 10 100, Active := true }

/-- Rule `{id 4, minStake 20, bonusPct 0.10, active}`. -/
def exRuleD : Offer :=
  { ID := 4, MinStake := F64.ofNat 20, BonusPct := F64.ofDecimal false 10 100, Active := true }

/-- A bet with the given stake. -/
def exBet (stake : Nat) : BetPlaced :=
  { EventID := "e-1", Ts := 0, UserID := "u-1", Market := "EPL", Stake := F64.ofNat stake,
    Currency := "GBP" }

/-- A bet whose stake is the JSON number `1e308`. -/
def exBetHuge : BetPlaced :=
  { EventID := "e-9", Ts := 0, UserID := "u-9", Market := "EPL",
    Stake := F64.ofDecimal false (10 ^ 308) 1, Currency := "GBP" }

/-- A fetched message. -/
def exMsg : Message := { Partition := 0, Offset := 7, Value := "payload" }

/-- A decoder that yields the given bet for every payload. -/
def exDecode (bet : BetPlaced) : String → Option BetPlaced := fun _ => some bet

/-- A pass in which every outside call succeeds and `uuid.New()` gives `id`. -/
def exOut (id : String) : Outcomes :=
  { fetch := Except.ok exMsg, awardID := id, execErr := none, now := 0, writeErr := none,
    commitErr := none }

/-- A pass in which `db.Exec` returns an error. -/
def exOutExecFails (id : String) : Outcomes :=
  { fetch := Except.ok exMsg, awardID := id, execErr := some "connection reset", now := 0,
    writeErr := none, commitErr := none }

/-- A pass in which `writer.WriteMessages` returns an error. -/
def exOutWriteFails (id : String) : Outcomes :=
  { fetch := Except.ok exMsg, awardID := id, execErr := none, now := 0,
    writeErr := some "broker unavailable", commitErr := none }

/-- A rule event with the given type for rule `id` with `minStake` and `active`. -/
def exEvent (typ : String) (id : Int) (minStake : Nat) (active : Bool) : RuleEvent :=
  { Typ := typ,
    Rule := { ID := id, MinStake := F64.ofNat minStake, BonusPct := F64.ofDecimal false 10 100,
              Active := active } }

/-- A state of the loop with an empty cache and two buffered rule events: rule 1
(`minStake` 100) first, then rule 2 (`minStake` 10). -/
def exEngine : Engine :=
  { offers := [], ruleCh := [exEvent "UPSERT" 1 100 true, exEvent "UPSERT" 2 10 true] }

/-- Two deliveries of the same message against the same cache, with award ids
`a-1` and `a-2`. -/
def exRedelivery : List Delivery :=
  [{ offers := [exRule10], m := exMsg, out := exOut "a-1" },
   { offers := [exRule10], m := exMsg, out := exOut "a-2" }]

/-- The same two deliveries, the insert of the first one returning an error. -/
def exRedeliveryExecFails : List Delivery :=
  [{ offers := [exRule10], m := exMsg, out := exOutExecFails "a-1" },
   { offers := [exRule10], m := exMsg, out := exOut "a-2" }]

/-! ## Order facts about `float64` comparison -/

namespace F64

theorem scaled_cast (neg : Bool) (m : Nat) (e b : Int) (h : b ≤ e) :
    ((scaled neg m e b : Int) : ℚ) = valQ neg m e * (2 : ℚ) ^ (-b) := by
  have hk : (((e - b).toNat : Nat) : Int) = e - b := Int.toNat_of_nonneg (by omega)
  have hp : ((2 : ℚ) ^ (e - b).toNat) = (2 : ℚ) ^ e * (2 : ℚ) ^ (-b) := by
    rw [← zpow_natCast, hk, sub_eq_add_neg, zpow_add₀ (by norm_num : (2 : ℚ) ≠ 0)]
  unfold scaled valQ
  cases neg <;> simp [hp] <;> ring

theorem scaled_lt_iff (s1 s2 : Bool) (m1 m2 : Nat) (e1 e2 : Int) :
    scaled s1 m1 e1 (min e1 e2) < scaled s2 m2 e2 (min e1 e2) ↔ valQ s1 m1 e1 < valQ s2 m2 e2 := by
  have hpos : (0 : ℚ) < (2 : ℚ) ^ (-(min e1 e2)) := zpow_pos (by norm_num) _
  rw [← Int.cast_lt (R := ℚ), scaled_cast _ _ _ _ (min_le_left _ _),
    scaled_cast _ _ _ _ (min_le_right _ _)]
  exact mul_lt_mul_right hpos

theorem scaled_le_iff (s1 s2 : Bool) (m1 m2 : Nat) (e1 e2 : Int) :
    scaled s1 m1 e1 (min e1 e2) ≤ scaled s2 m2 e2 (min e1 e2) ↔ valQ s1 m1 e1 ≤ valQ s2 m2 e2 := by
  have hpos : (0 : ℚ) < (2 : ℚ) ^ (-(min e1 e2)) := zpow_pos (by norm_num) _
  rw [← Int.cast_le (R := ℚ), scaled_cast _ _ _ _ (min_le_left _ _),
    scaled_cast _ _ _ _ (min_le_right _ _)]
  exact mul_le_mul_right hpos

theorem lt_iff_key (a b : F64) :
    lt a b = true ↔ a.isNaN = false ∧ b.isNaN = false ∧ key a < key b := by
  cases a with
  | nan => simp [lt, isNaN]
  | inf s =>
    cases b with
    | nan => simp [lt, isNaN]
    | inf t => cases s <;> cases t <;> simp [lt, isNaN, key, Prod.Lex.lt_iff]
    | fin t m e => cases s <;> simp [lt, isNaN, key, Prod.Lex.lt_iff]
  | fin s m e =>
    cases b with
    | nan => simp [lt, isNaN]
    | inf t => cases t <;> simp [lt, isNaN, key, Prod.Lex.lt_iff]
    | fin t n f => simp [lt, isNaN, key, Prod.Lex.lt_iff, scaled_lt_iff]

theorem le_iff_key (a b : F64) :
    le a b = true ↔ a.isNaN = false ∧ b.isNaN = false ∧ key a ≤ key b := by
  cases a with
  | nan => simp [le, isNaN]
  | inf s =>
    cases b with
    | nan => simp [le, isNaN]
    | inf t => cases s <;> cases t <;> simp [le, isNaN, key, Prod.Lex.le_iff]
    | fin t m e => cases s <;> simp [le, isNaN, key, Prod.Lex.le_iff]
  | fin s m e =>
    cases b with
    | nan => simp [le, isNaN]
    | inf t => cases t <;> simp [le, isNaN, key, Prod.Lex.le_iff]
    | fin t n f =>
      simp only [le, isNaN, key, decide_eq_true_eq, scaled_le_iff, true_and, Prod.Lex.le_iff]
      simp [le_iff_lt_or_eq]

theorem lt_self (a : F64) : lt a a = false := by
  cases h : lt a a
  · rfl
  · exact absurd ((lt_iff_key a a).1 h).2.2 (lt_irrefl _)

theorem lt_chain {a b c : F64} (hab : lt a b = true) (hbc : lt b c = true) : lt a c = true := by
  obtain ⟨ha, _, h1⟩ := (lt_iff_key a b).1 hab
  obtain ⟨_, hc, h2⟩ := (lt_iff_key b c).1 hbc
  exact (lt_iff_key a c).2 ⟨ha, hc, lt_trans h1 h2⟩

theorem lt_of_not_lt {a b c : F64} (hb : b.isNaN = false) (hab : lt a b = false)
    (hac : lt a c = true) : lt b c = true := by
  obtain ⟨ha, hc, h1⟩ := (lt_iff_key a c).1 hac
  have h2 : ¬ key a < key b := by
    intro h
    have := (lt_iff_key a b).2 ⟨ha, hb, h⟩
    rw [hab] at this
    exact Bool.noConfusion this
  exact (lt_iff_key b c).2 ⟨hb, hc, lt_of_le_of_lt (not_lt.1 h2) h1⟩

theorem le_iff_not_lt (a b : F64) :
    le a b = true ↔ a.isNaN = false ∧ b.isNaN = false ∧ lt b a = false := by
  rw [le_iff_key]
  constructor
  · rintro ⟨ha, hb, h⟩
    refine ⟨ha, hb, ?_⟩
    cases hlt : lt b a
    · rfl
    · exact absurd ((lt_iff_key b a).1 hlt).2.2 (not_lt.2 h)
  · rintro ⟨ha, hb, h⟩
    refine ⟨ha, hb, not_lt.1 ?_⟩
    intro hk
    have := (lt_iff_key b a).2 ⟨hb, ha, hk⟩
    rw [h] at this
    exact Bool.noConfusion this

end F64

/-! ## Rule cache -/

theorem getElem?_middle {α : Type} (pre post : List α) (o : α) :
    (pre ++ o :: post)[pre.length]? = some o := by
  rw [List.getElem?_append_right (Nat.le_refl _)]
  simp

theorem upsert_nil (re : RuleEvent) :
    upsert [] re = [offerOf re] := by
  simp [upsert, upsertLoop, offerOf]

theorem upsert_cons_eq (o : Offer) (os : List Offer) (re : RuleEvent) (h : o.ID = re.Rule.ID) :
    upsert (o :: os) re = offerOf re :: os := by
  simp [upsert, upsertLoop, h, offerOf]

theorem upsert_cons_ne (o : Offer) (os : List Offer) (re : RuleEvent) (h : o.ID ≠ re.Rule.ID) :
    upsert (o :: os) re = o :: upsert os re := by
  simp only [upsert, upsertLoop, if_neg h]
  split <;> simp

theorem upsert_of_absent (offers : List Offer) (re : RuleEvent)
    (h : ∀ o ∈ offers, o.ID ≠ re.Rule.ID) :
    upsert offers re = offers ++ [offerOf re] := by
  induction offers with
  | nil => simp [upsert_nil]
  | cons o os ih =>
    rw [upsert_cons_ne o os re (h o (List.mem_cons_self _ _)),
      ih (fun p hp => h p (List.mem_cons_of_mem _ hp))]
    rfl

theorem upsert_of_present (offers : List Offer) (re : RuleEvent)
    (h : ∃ o ∈ offers, o.ID = re.Rule.ID) :
    ∃ pre o post, offers = pre ++ o :: post ∧ (∀ p ∈ pre, p.ID ≠ re.Rule.ID) ∧
      o.ID = re.Rule.ID ∧
      upsert offers re = pre ++ offerOf re :: post := by
  induction offers with
  | nil => simp at h
  | cons x xs ih =>
    by_cases hx : x.ID = re.Rule.ID
    · exact ⟨[], x, xs, rfl, by simp, hx, by simp [upsert_cons_eq x xs re hx]⟩
    · have h2 : ∃ o ∈ xs, o.ID = re.Rule.ID := by
        obtain ⟨o, ho, hid⟩ := h
        rcases List.mem_cons.1 ho with rfl | ho
        · exact absurd hid hx
        · exact ⟨o, ho, hid⟩
      obtain ⟨pre, o, post, hsplit, hpre, ho, hup⟩ := ih h2
      refine ⟨x :: pre, o, post, by simp [hsplit], ?_, ho, ?_⟩
      · intro p hp
        rcases List.mem_cons.1 hp with rfl | hp
        · exact hx
        · exact hpre p hp
      · rw [upsert_cons_ne x xs re hx, hup]; rfl

theorem mem_upsert (offers : List Offer) (re : RuleEvent) (hd : DistinctIds offers) (o : Offer)
    (ho : o ∈ upsert offers re) :
    o = offerOf re ∨ (o ∈ offers ∧ o.ID ≠ re.Rule.ID) := by
  induction offers with
  | nil => left; simpa [upsert_nil] using ho
  | cons x xs ih =>
    have hd2 := List.pairwise_cons.1 hd
    by_cases hx : x.ID = re.Rule.ID
    · rw [upsert_cons_eq x xs re hx] at ho
      rcases List.mem_cons.1 ho with rfl | ho
      · left; rfl
      · right
        exact ⟨List.mem_cons_of_mem _ ho, fun h => hd2.1 o ho (hx.trans h.symm)⟩
    · rw [upsert_cons_ne x xs re hx] at ho
      rcases List.mem_cons.1 ho with rfl | ho
      · right; exact ⟨List.mem_cons_self _ _, hx⟩
      · rcases ih hd2.2 ho with h | ⟨h1, h2⟩
        · left; exact h
        · right; exact ⟨List.mem_cons_of_mem _ h1, h2⟩

theorem upsert_ids (offers : List Offer) (re : RuleEvent) :
    (upsert offers re).map Offer.ID =
      if re.Rule.ID ∈ offers.map Offer.ID then offers.map Offer.ID
      else offers.map Offer.ID ++ [re.Rule.ID] := by
  induction offers with
  | nil => simp [upsert_nil, offerOf]
  | cons x xs ih =>
    by_cases hx : x.ID = re.Rule.ID
    · rw [upsert_cons_eq x xs re hx]; simp [hx, offerOf]
    · rw [upsert_cons_ne x xs re hx]
      have hx2 : ¬ re.Rule.ID = x.ID := fun h => hx h.symm
      simp only [List.map_cons, ih, List.mem_cons, hx2, false_or]
      split <;> simp

theorem distinctIds_iff (offers : List Offer) :
    DistinctIds offers ↔ (offers.map Offer.ID).Nodup := by
  unfold DistinctIds List.Nodup
  rw [List.pairwise_map]

theorem distinctIds_upsert (offers : List Offer) (re : RuleEvent) (h : DistinctIds offers) :
    DistinctIds (upsert offers re) := by
  rw [distinctIds_iff] at h ⊢
  rw [upsert_ids]
  split
  · exact h
  · rename_i hmem
    exact List.Nodup.append h (List.nodup_singleton _) (by simpa using hmem)

theorem distinctIds_applyRules (evs : List RuleEvent) :
    ∀ offers : List Offer, DistinctIds offers → DistinctIds (applyRules offers evs) := by
  induction evs with
  | nil => intro offers h; exact h
  | cons e es ih => intro offers h; exact ih _ (distinctIds_upsert offers e h)

/-! ## Match & select -/

theorem matchLoop_append (stake : F64) (xs ys : List Offer) :
    ∀ (i : Nat) (st : Int × F64),
      matchLoop stake (xs ++ ys) i st = matchLoop stake ys (i + xs.length) (matchLoop stake xs i st) := by
  induction xs with
  | nil => intro i st; simp [matchLoop]
  | cons x xs ih =>
    intro i st
    have hlen : i + (x :: xs).length = i + 1 + xs.length := by simp; omega
    rw [hlen]
    simp only [List.cons_append, matchLoop]
    split
    · exact ih _ _
    · split
      · exact ih _ _
      · exact ih _ _

theorem matchLoop_single (stake : F64) (o : Offer) (i : Nat) (st : Int × F64) :
    matchLoop stake [o] i st =
      if !o.Active || F64.lt stake o.MinStake then st
      else if F64.gt (bonusOf stake o) st.2 then ((i : Int), bonusOf stake o) else st := by
  simp only [matchLoop, bonusOf]

theorem passes_iff (stake : F64) (o : Offer) :
    Passes stake o ↔ (!o.Active || F64.lt stake o.MinStake) = false := by
  unfold Passes
  cases o.Active <;> cases F64.lt stake o.MinStake <;> simp

theorem isNaN_of_gt_zero {a : F64} (h : F64.gt a F64.zero = true) : a.isNaN = false :=
  ((F64.lt_iff_key _ _).1 h).2.1

theorem matchInv_step (stake : F64) (l : List Offer) (o : Offer) (r : Int × F64)
    (h : MatchInv stake l r) :
    MatchInv stake (l ++ [o]) (matchLoop stake [o] l.length r) := by
  rw [matchLoop_single]
  by_cases hp : Passes stake o
  · rw [if_neg (by rw [(passes_iff stake o).1 hp]; simp)]
    rcases h with ⟨hr, hnone⟩ | ⟨k, b, hr, hk, hpb, hpos, hbest⟩
    · -- nothing taken so far
      subst hr
      by_cases hgt : F64.gt (bonusOf stake o) F64.zero = true
      · rw [if_pos hgt]
        right
        refine ⟨l.length, o, rfl, by simp, hp, hgt, ?_⟩
        intro j p hj hpp hppos
        rcases Nat.lt_or_ge j l.length with hlt | hge
        · rw [List.getElem?_append_left hlt] at hj
          have := hnone p (List.getElem?_mem hj) hpp
          rw [this] at hppos
          exact absurd hppos (by simp)
        · have hj2 : j = l.length := by
            have := List.getElem?_eq_some_iff.1 hj
            obtain ⟨hjl, _⟩ := this
            simp at hjl
            omega
          subst hj2
          simp at hj
          subst hj
          exact ⟨F64.lt_self _, fun h => absurd h (Nat.lt_irrefl _)⟩
      · rw [if_neg hgt]
        left
        refine ⟨rfl, ?_⟩
        intro p hpm hpp
        rcases List.mem_append.1 hpm with hm | hm
        · exact hnone p hm hpp
        · simp at hm
          subst hm
          simpa using hgt
    · -- the entry at `k` is the best so far
      subst hr
      have hkl : k < l.length := by
        have := List.getElem?_eq_some_iff.1 hk
        exact this.1
      by_cases hgt : F64.gt (bonusOf stake o) (bonusOf stake b) = true
      · rw [if_pos hgt]
        right
        have hopos : F64.gt (bonusOf stake o) F64.zero = true := F64.lt_chain hpos hgt
        refine ⟨l.length, o, rfl, by simp, hp, hopos, ?_⟩
        intro j p hj hpp hppos
        rcases Nat.lt_or_ge j l.length with hlt | hge
        · rw [List.getElem?_append_left hlt] at hj
          obtain ⟨h1, _⟩ := hbest j p hj hpp hppos
          have h3 : F64.lt (bonusOf stake p) (bonusOf stake o) = true :=
            F64.lt_of_not_lt (isNaN_of_gt_zero hppos) h1 hgt
          refine ⟨?_, fun _ => h3⟩
          cases h4 : F64.lt (bonusOf stake o) (bonusOf stake p)
          · rfl
          · have := F64.lt_chain h3 h4
            rw [F64.lt_self] at this
            exact Bool.noConfusion this
        · have hj2 : j = l.length := by
            have := List.getElem?_eq_some_iff.1 hj
            obtain ⟨hjl, _⟩ := this
            simp at hjl
            omega
          subst hj2
          simp at hj
          subst hj
          exact ⟨F64.lt_self _, fun h => absurd h (Nat.lt_irrefl _)⟩
      · rw [if_neg hgt]
        right
        refine ⟨k, b, rfl, by rw [List.getElem?_append_left hkl]; exact hk, hpb, hpos, ?_⟩
        intro j p hj hpp hppos
        rcases Nat.lt_or_ge j l.length with hlt | hge
        · rw [List.getElem?_append_left hlt] at hj
          exact hbest j p hj hpp hppos
        · have hj2 : j = l.length := by
            have := List.getElem?_eq_some_iff.1 hj
            obtain ⟨hjl, _⟩ := this
            simp at hjl
            omega
          subst hj2
          simp at hj
          subst hj
          refine ⟨by simpa [F64.gt] using hgt, fun h => ?_⟩
          omega
  · rw [if_pos (by
      have := (passes_iff stake o).not.1 hp
      revert this
      cases o.Active <;> cases F64.lt stake o.MinStake <;> simp)]
    rcases h with ⟨hr, hnone⟩ | ⟨k, b, hr, hk, hpb, hpos, hbest⟩
    · left
      refine ⟨hr, ?_⟩
      intro p hpm hpp
      rcases List.mem_append.1 hpm with hm | hm
      · exact hnone p hm hpp
      · simp at hm
        subst hm
        exact absurd hpp hp
    · right
      have hkl : k < l.length := (List.getElem?_eq_some_iff.1 hk).1
      refine ⟨k, b, hr, by rw [List.getElem?_append_left hkl]; exact hk, hpb, hpos, ?_⟩
      intro j p hj hpp hppos
      rcases Nat.lt_or_ge j l.length with hlt | hge
      · rw [List.getElem?_append_left hlt] at hj
        exact hbest j p hj hpp hppos
      · have hj2 : j = l.length := by
          have := List.getElem?_eq_some_iff.1 hj
          obtain ⟨hjl, _⟩ := this
          simp at hjl
          omega
        subst hj2
        simp at hj
        subst hj
        exact absurd hpp hp

theorem matchInv_matchSelect (offers : List Offer) (bet : BetPlaced) :
    MatchInv bet.Stake offers (matchSelect offers bet) := by
  unfold matchSelect
  induction offers using List.reverseRecOn with
  | nil => exact Or.inl ⟨rfl, by simp⟩
  | append_singleton l o ih =>
    rw [matchLoop_append, Nat.zero_add]
    exact matchInv_step bet.Stake l o _ ih

theorem qualifies_iff (stake : F64) (o : Offer) (hs : stake.isNaN = false)
    (hm : o.MinStake.isNaN = false) :
    Qualifies stake o ↔ Passes stake o ∧ F64.gt (bonusOf stake o) F64.zero = true := by
  unfold Qualifies Passes F64.ge
  rw [F64.le_iff_not_lt]
  constructor
  · rintro ⟨ha, ⟨_, _, hlt⟩, hg⟩
    exact ⟨⟨ha, hlt⟩, hg⟩
  · rintro ⟨⟨ha, hlt⟩, hg⟩
    exact ⟨ha, ⟨hm, hs, hlt⟩, hg⟩

/-! ## Traces -/

theorem marshal_eq_some {evt e : AwardEvent} (h : marshal evt = some e) : e = evt := by
  unfold marshal at h
  split at h
  · exact (Option.some.inj h).symm
  · exact Option.noConfusion h

theorem marshal_of_finite (evt : AwardEvent) (hs : evt.Stake.isFinite = true)
    (hb : evt.BonusAmount.isFinite = true) : marshal evt = some evt := by
  simp [marshal, hs, hb]

theorem handleMessage_none (unmarshal : String → Option BetPlaced) (offers : List Offer)
    (m : Message) (out : Outcomes) (bet : BetPlaced) (hdec : unmarshal m.Value = some bet)
    (hr : matchSelect offers bet = (-1, F64.zero)) :
    handleMessage unmarshal offers m out =
      Effect.commitMessages m ::
        (match out.commitErr with
         | some _ => [Effect.logPrintf "commit error"]
         | none => []) := by
  simp [handleMessage, hdec, hr]

theorem handleMessage_some (unmarshal : String → Option BetPlaced) (offers : List Offer)
    (m : Message) (out : Outcomes) (bet : BetPlaced) (hdec : unmarshal m.Value = some bet)
    (k : Nat) (o : Offer) (hr : matchSelect offers bet = ((k : Int), bonusOf bet.Stake o))
    (hk : offers[k]? = some o) (hpos : F64.gt (bonusOf bet.Stake o) F64.zero = true) :
    handleMessage unmarshal offers m out =
      Effect.dbExec out.awardID bet.EventID bet.UserID bet.Stake (bonusOf bet.Stake o) o.ID ::
        ((match out.execErr with
          | some _ => [Effect.logPrintf "award insert"]
          | none =>
              Effect.writeMessages
                  (marshal
                    { AwardID := out.awardID, EventID := bet.EventID, UserID := bet.UserID,
                      OfferID := o.ID, Stake := bet.Stake, BonusAmount := bonusOf bet.Stake o,
                      Ts := out.now }) ::
                (match out.writeErr with
                 | some _ => [Effect.logPrintf "produce award"]
                 | none => [])) ++
          Effect.commitMessages m ::
            (match out.commitErr with
             | some _ => [Effect.logPrintf "commit error"]
             | none => [])) := by
  simp [handleMessage, hdec, hr, hpos, awardSink, hk]

theorem writes_of_win (unmarshal : String → Option BetPlaced) (offers : List Offer)
    (m : Message) (out : Outcomes) (bet : BetPlaced) (hdec : unmarshal m.Value = some bet)
    (k : Nat) (o : Offer) (hr : matchSelect offers bet = ((k : Int), bonusOf bet.Stake o))
    (hk : offers[k]? = some o) (hpos : F64.gt (bonusOf bet.Stake o) F64.zero = true) :
    writes (handleMessage unmarshal offers m out) =
      (match out.execErr with
       | some _ => []
       | none =>
           [marshal
             { AwardID := out.awardID, EventID := bet.EventID, UserID := bet.UserID,
               OfferID := o.ID, Stake := bet.Stake, BonusAmount := bonusOf bet.Stake o,
               Ts := out.now }]) := by
  rw [handleMessage_some unmarshal offers m out bet hdec k o hr hk hpos]
  cases out.execErr <;> cases out.writeErr <;> cases out.commitErr <;> simp [writes]

theorem inserts_of_win (unmarshal : String → Option BetPlaced) (offers : List Offer)
    (m : Message) (out : Outcomes) (bet : BetPlaced) (hdec : unmarshal m.Value = some bet)
    (k : Nat) (o : Offer) (hr : matchSelect offers bet = ((k : Int), bonusOf bet.Stake o))
    (hk : offers[k]? = some o) (hpos : F64.gt (bonusOf bet.Stake o) F64.zero = true) :
    insertsAttempted (handleMessage unmarshal offers m out) =
      [{ id := out.awardID, event_id := bet.EventID, user_id := bet.UserID,
         stake := bet.Stake, bonus_amount := bonusOf bet.Stake o, offer_id := o.ID }] := by
  rw [handleMessage_some unmarshal offers m out bet hdec k o hr hk hpos]
  cases out.execErr <;> cases out.writeErr <;> cases out.commitErr <;> simp [insertsAttempted]

theorem storeAfter_of_win (unmarshal : String → Option BetPlaced) (offers : List Offer)
    (m : Message) (out : Outcomes) (bet : BetPlaced) (hdec : unmarshal m.Value = some bet)
    (k : Nat) (o : Offer) (hr : matchSelect offers bet = ((k : Int), bonusOf bet.Stake o))
    (hk : offers[k]? = some o) (hpos : F64.gt (bonusOf bet.Stake o) F64.zero = true)
    (store : List AwardRow) :
    storeAfter out store (handleMessage unmarshal offers m out) =
      (match out.execErr with
       | some _ => store
       | none => insertAwardIfAbsent store
           { id := out.awardID, event_id := bet.EventID, user_id := bet.UserID,
             stake := bet.Stake, bonus_amount := bonusOf bet.Stake o, offer_id := o.ID }) := by
  rw [handleMessage_some unmarshal offers m out bet hdec k o hr hk hpos]
  cases he : out.execErr <;> cases out.writeErr <;> cases out.commitErr <;>
    simp [storeAfter, he]

theorem matchSelect_cases (offers : List Offer) (bet : BetPlaced) :
    (matchSelect offers bet = (-1, F64.zero) ∧
        ∀ o ∈ offers, Passes bet.Stake o → F64.gt (bonusOf bet.Stake o) F64.zero = false) ∨
    (∃ (k : Nat) (o : Offer), matchSelect offers bet = ((k : Int), bonusOf bet.Stake o) ∧
        offers[k]? = some o ∧ Passes bet.Stake o ∧
        F64.gt (bonusOf bet.Stake o) F64.zero = true ∧
        ∀ (j : Nat) (p : Offer), offers[j]? = some p → Passes bet.Stake p →
          F64.gt (bonusOf bet.Stake p) F64.zero = true →
          F64.lt (bonusOf bet.Stake o) (bonusOf bet.Stake p) = false ∧
          (j < k → F64.lt (bonusOf bet.Stake p) (bonusOf bet.Stake o) = true)) :=
  matchInv_matchSelect offers bet

theorem wins_iff (offers : List Offer) (bet : BetPlaced) :
    (0 ≤ (matchSelect offers bet).1 ∧ F64.gt (matchSelect offers bet).2 F64.zero = true) ↔
      ∃ o ∈ offers, Passes bet.Stake o ∧ F64.gt (bonusOf bet.Stake o) F64.zero = true := by
  rcases matchSelect_cases offers bet with ⟨hr, hnone⟩ | ⟨k, o, hr, hk, hp, hpos, _⟩
  · rw [hr]
    constructor
    · rintro ⟨h, _⟩
      exact absurd h (by decide)
    · rintro ⟨o, ho, hp, hg⟩
      rw [hnone o ho hp] at hg
      exact Bool.noConfusion hg
  · rw [hr]
    constructor
    · intro _
      exact ⟨o, List.getElem?_mem hk, hp, hpos⟩
    · intro _
      exact ⟨Int.ofNat_nonneg k, hpos⟩

/-! ## The claims -/

/-- C1. Match & select: when some rule of the cache is active, has
`stake >= minStake` and a rounded bonus `> 0`, the loop ends on an entry `best`
at index `i` that is such a rule, whose rounded bonus is `>=` that of every
such rule, and every such rule whose bonus is not below it sits at an index
`>= i`; the insert carries `best.ID` and that bonus, and so does every award
event handed to the writer (the one message written after an insert without
error has the marshalled event of `best` as its value).
The stake and the `minStake`s are numbers (not NaN), as JSON decoding gives. -/
theorem match_select_first_greatest (unmarshal : String → Option BetPlaced)
    (offers : List Offer) (m : Message) (out : Outcomes) (bet : BetPlaced)
    (hdec : unmarshal m.Value = some bet)
    (hstake : bet.Stake.isNaN = false)
    (hmin : ∀ o ∈ offers, o.MinStake.isNaN = false)
    (hex : ∃ o ∈ offers, Qualifies bet.Stake o) :
    ∃ (i : Nat) (best : Offer), offers[i]? = some best ∧ Qualifies bet.Stake best ∧
      (∀ (j : Nat) (p : Offer), offers[j]? = some p → Qualifies bet.Stake p →
        F64.le (bonusOf bet.Stake p) (bonusOf bet.Stake best) = true ∧
        (F64.le (bonusOf bet.Stake best) (bonusOf bet.Stake p) = true → i ≤ j)) ∧
      matchSelect offers bet = ((i : Int), bonusOf bet.Stake best) ∧
      insertsAttempted (handleMessage unmarshal offers m out) =
        [{ id := out.awardID, event_id := bet.EventID, user_id := bet.UserID,
           stake := bet.Stake, bonus_amount := bonusOf bet.Stake best,
           offer_id := best.ID }] ∧
      (∀ evt ∈ eventsWritten (handleMessage unmarshal offers m out),
        evt.OfferID = best.ID ∧ evt.BonusAmount = bonusOf bet.Stake best) ∧
      (out.execErr = none →
        writes (handleMessage unmarshal offers m out) =
          [marshal
            { AwardID := out.awardID, EventID := bet.EventID, UserID := bet.UserID,
              OfferID := best.ID, Stake := bet.Stake,
              BonusAmount := bonusOf bet.Stake best, Ts := out.now }]) := by
  rcases matchSelect_cases offers bet with ⟨_, hnone⟩ | ⟨k, o, hr, hk, hp, hpos, hbest⟩
  · obtain ⟨o, ho, hq⟩ := hex
    have h := (qualifies_iff bet.Stake o hstake (hmin o ho)).1 hq
    rw [hnone o ho h.1] at h
    exact absurd h.2 (by simp)
  · have hom : o ∈ offers := List.getElem?_mem hk
    refine ⟨k, o, hk, (qualifies_iff bet.Stake o hstake (hmin o hom)).2 ⟨hp, hpos⟩, ?_, hr, ?_, ?_, ?_⟩
    · intro j p hj hq
      have hpq := (qualifies_iff bet.Stake p hstake (hmin p (List.getElem?_mem hj))).1 hq
      obtain ⟨h1, h2⟩ := hbest j p hj hpq.1 hpq.2
      refine ⟨(F64.le_iff_not_lt _ _).2 ⟨isNaN_of_gt_zero hpq.2, isNaN_of_gt_zero hpos, h1⟩, ?_⟩
      intro hle
      by_contra hlt
      have h3 := h2 (by omega)
      rw [((F64.le_iff_not_lt _ _).1 hle).2.2] at h3
      exact Bool.noConfusion h3
    · exact inserts_of_win unmarshal offers m out bet hdec k o hr hk hpos
    · intro evt hevt
      obtain ⟨v, hv, hve⟩ := List.mem_filterMap.1 hevt
      rw [writes_of_win unmarshal offers m out bet hdec k o hr hk hpos] at hv
      cases he : out.execErr with
      | some _ => simp [he] at hv
      | none =>
        simp only [he, List.mem_singleton] at hv
        rw [hv] at hve
        have := marshal_eq_some hve
        subst this
        exact ⟨rfl, rfl⟩
    · intro he
      rw [writes_of_win unmarshal offers m out bet hdec k o hr hk hpos, he]

set_option maxRecDepth 4000 in
/-- C1, exercised on a cache with a choice to make: stake 50 against rules
`{1, 10, 0.05}`, `{3, 10, 0.10}` and `{4, 20, 0.10}` gives bonuses 2.50, 5.00
and 5.00; the loop ends on index 1 (rule 3), the first with the greatest. -/
theorem match_select_first_greatest_witness :
    ((exBet 50).Stake.isNaN = false ∧
      (∀ o ∈ [exRuleA, exRuleC, exRuleD], o.MinStake.isNaN = false) ∧
      ∃ o ∈ [exRuleA, exRuleC, exRuleD], Qualifies (exBet 50).Stake o) ∧
    (bonusOf (exBet 50).Stake exRuleA = F64.ofDecimal false 250 100 ∧
      bonusOf (exBet 50).Stake exRuleC = F64.ofNat 5 ∧
      bonusOf (exBet 50).Stake exRuleD = F64.ofNat 5) ∧
    matchSelect [exRuleA, exRuleC, exRuleD] (exBet 50) = (1, F64.ofNat 5) ∧
    ∃ (i : Nat) (best : Offer), [exRuleA, exRuleC, exRuleD][i]? = some best ∧
      Qualifies (exBet 50).Stake best ∧
      (∀ (j : Nat) (p : Offer), [exRuleA, exRuleC, exRuleD][j]? = some p →
        Qualifies (exBet 50).Stake p →
        F64.le (bonusOf (exBet 50).Stake p) (bonusOf (exBet 50).Stake best) = true ∧
        (F64.le (bonusOf (exBet 50).Stake best) (bonusOf (exBet 50).Stake p) = true → i ≤ j)) ∧
      matchSelect [exRuleA, exRuleC, exRuleD] (exBet 50) =
        ((i : Int), bonusOf (exBet 50).Stake best) ∧
      insertsAttempted
          (handleMessage (exDecode (exBet 50)) [exRuleA, exRuleC, exRuleD] exMsg (exOut "a-1")) =
        [{ id := (exOut "a-1").awardID, event_id := (exBet 50).EventID,
           user_id := (exBet 50).UserID, stake := (exBet 50).Stake,
           bonus_amount := bonusOf (exBet 50).Stake best, offer_id := best.ID }] ∧
      (∀ evt ∈ eventsWritten
          (handleMessage (exDecode (exBet 50)) [exRuleA, exRuleC, exRuleD] exMsg (exOut "a-1")),
        evt.OfferID = best.ID ∧ evt.BonusAmount = bonusOf (exBet 50).Stake best) ∧
      ((exOut "a-1").execErr = none →
        writes
            (handleMessage (exDecode (exBet 50)) [exRuleA, exRuleC, exRuleD] exMsg
              (exOut "a-1")) =
          [marshal
            { AwardID := (exOut "a-1").awardID, EventID := (exBet 50).EventID,
              UserID := (exBet 50).UserID, OfferID := best.ID, Stake := (exBet 50).Stake,
              BonusAmount := bonusOf (exBet 50).Stake best, Ts := (exOut "a-1").now }]) :=
  ⟨⟨by decide, by decide, by decide⟩, ⟨by decide, by decide, by decide⟩, by decide,
    match_select_first_greatest (exDecode (exBet 50)) [exRuleA, exRuleC, exRuleD] exMsg
      (exOut "a-1") (exBet 50) rfl (by decide) (by decide) (by decide)⟩

set_option maxRecDepth 4000 in
/-- The examples of the specification, evaluated: stake 50 against rule
`{1, 10, 0.10}` inserts offer 1 with bonus 5.00 and writes that event; stake 25
against rules `{1, 10, 0.05}` and `{2, 20, 0.05}` gives 1.25 twice and takes
index 0 (rule 1); stake 5 against a rule with `minStake` 10 makes no insert. -/
theorem spec_examples :
    insertsAttempted (handleMessage (exDecode (exBet 50)) [exRule10] exMsg (exOut "a-1")) =
      [{ id := "a-1", event_id := "e-1", user_id := "u-1", stake := F64.ofNat 50,
         bonus_amount := F64.ofNat 5, offer_id := 1 }] ∧
    eventsWritten (handleMessage (exDecode (exBet 50)) [exRule10] exMsg (exOut "a-1")) =
      [{ AwardID := "a-1", EventID := "e-1", UserID := "u-1", OfferID := 1,
         Stake := F64.ofNat 50, BonusAmount := F64.ofNat 5, Ts := 0 }] ∧
    bonusOf (F64.ofNat 25) exRuleA = F64.ofDecimal false 125 100 ∧
    bonusOf (F64.ofNat 25) exRuleB = F64.ofDecimal false 125 100 ∧
    matchSelect [exRuleA, exRuleB] (exBet 25) = (0, F64.ofDecimal false 125 100) ∧
    insertsAttempted (handleMessage (exDecode (exBet 5)) [exRule10] exMsg (exOut "a-1")) = [] := by
  refine ⟨by decide, by decide, by decide, by decide, by decide, by decide⟩

/-- C2. An award is attempted exactly when some rule qualifies: the insert is
attempted iff some rule of the cache is active, has `stake >= minStake` and a
rounded bonus `> 0`; a message is handed to the writer iff moreover the insert
returned no error; and without such a rule there is neither insert nor write.
The stake and the `minStake`s are numbers (not NaN), as JSON decoding gives. -/
theorem award_attempted_iff_qualifies (unmarshal : String → Option BetPlaced)
    (offers : List Offer) (m : Message) (out : Outcomes) (bet : BetPlaced)
    (hdec : unmarshal m.Value = some bet)
    (hstake : bet.Stake.isNaN = false)
    (hmin : ∀ o ∈ offers, o.MinStake.isNaN = false) :
    (insertsAttempted (handleMessage unmarshal offers m out) ≠ [] ↔
      ∃ o ∈ offers, Qualifies bet.Stake o) ∧
    (writes (handleMessage unmarshal offers m out) ≠ [] ↔
      (∃ o ∈ offers, Qualifies bet.Stake o) ∧ out.execErr = none) ∧
    ((¬ ∃ o ∈ offers, Qualifies bet.Stake o) →
      insertsAttempted (handleMessage unmarshal offers m out) = [] ∧
      writes (handleMessage unmarshal offers m out) = []) := by
  have hq : (∃ o ∈ offers, Qualifies bet.Stake o) ↔
      ∃ o ∈ offers, Passes bet.Stake o ∧ F64.gt (bonusOf bet.Stake o) F64.zero = true := by
    constructor
    · rintro ⟨o, ho, h⟩
      exact ⟨o, ho, (qualifies_iff bet.Stake o hstake (hmin o ho)).1 h⟩
    · rintro ⟨o, ho, h⟩
      exact ⟨o, ho, (qualifies_iff bet.Stake o hstake (hmin o ho)).2 h⟩
  rcases matchSelect_cases offers bet with ⟨hr, hnone⟩ | ⟨k, o, hr, hk, hp, hpos, _⟩
  · have hno : ¬ ∃ o ∈ offers, Qualifies bet.Stake o := by
      rw [hq]
      rintro ⟨o, ho, hp, hg⟩
      rw [hnone o ho hp] at hg
      exact Bool.noConfusion hg
    have h1 : insertsAttempted (handleMessage unmarshal offers m out) = [] := by
      rw [handleMessage_none unmarshal offers m out bet hdec hr]
      cases out.commitErr <;> simp [insertsAttempted]
    have h2 : writes (handleMessage unmarshal offers m out) = [] := by
      rw [handleMessage_none unmarshal offers m out bet hdec hr]
      cases out.commitErr <;> simp [writes]
    refine ⟨?_, ?_, fun _ => ⟨h1, h2⟩⟩
    · simp [h1, hno]
    · simp [h2, hno]
  · have hyes : ∃ o ∈ offers, Qualifies bet.Stake o :=
      hq.2 ⟨o, List.getElem?_mem hk, hp, hpos⟩
    refine ⟨?_, ?_, fun h => absurd hyes h⟩
    · rw [handleMessage_some unmarshal offers m out bet hdec k o hr hk hpos]
      simp [insertsAttempted, hyes]
    · rw [writes_of_win unmarshal offers m out bet hdec k o hr hk hpos]
      cases he : out.execErr <;> simp [hyes]

set_option maxRecDepth 4000 in
/-- C2, exercised: stake 5 against a single rule with `minStake` 10. -/
theorem award_attempted_iff_qualifies_witness :
    ((exBet 5).Stake.isNaN = false ∧ (∀ o ∈ [exRule10], o.MinStake.isNaN = false) ∧
      ¬ ∃ o ∈ [exRule10], Qualifies (exBet 5).Stake o) ∧
    insertsAttempted (handleMessage (exDecode (exBet 5)) [exRule10] exMsg (exOut "a-1")) = [] ∧
    writes (handleMessage (exDecode (exBet 5)) [exRule10] exMsg (exOut "a-1")) = [] :=
  ⟨⟨by decide, by decide, by decide⟩,
    (award_attempted_iff_qualifies (exDecode (exBet 5)) [exRule10] exMsg (exOut "a-1") (exBet 5)
      rfl (by decide) (by decide)).2.2 (by decide)⟩

/-- C3. Cache upsert: with no entry of the event's id, the new cache is the old
one with the event's entry appended; with such an entry, length and order are
kept, the first entry with that id becomes the event's entry (same id, the
event's `minStake`, `bonusPct`, `active`) and every other position is unchanged. -/
theorem upsert_appends_or_replaces_first (offers : List Offer) (re : RuleEvent) :
    ((∀ o ∈ offers, o.ID ≠ re.Rule.ID) → upsert offers re = offers ++ [offerOf re]) ∧
    ((∃ o ∈ offers, o.ID = re.Rule.ID) →
      (upsert offers re).length = offers.length ∧
      ∃ (i : Nat) (old : Offer), offers[i]? = some old ∧ old.ID = re.Rule.ID ∧
        (∀ (j : Nat) (p : Offer), j < i → offers[j]? = some p → p.ID ≠ re.Rule.ID) ∧
        (upsert offers re)[i]? =
          some { ID := old.ID, MinStake := re.Rule.MinStake, BonusPct := re.Rule.BonusPct,
                 Active := re.Rule.Active } ∧
        ∀ (j : Nat), j ≠ i → (upsert offers re)[j]? = offers[j]?) := by
  refine ⟨upsert_of_absent offers re, ?_⟩
  intro h
  obtain ⟨pre, o, post, hsplit, hpre, ho, hup⟩ := upsert_of_present offers re h
  rw [hup, hsplit]
  refine ⟨by simp, pre.length, o, getElem?_middle pre post o, ho, ?_, ?_, ?_⟩
  · intro j p hj hjp
    rw [List.getElem?_append_left hj] at hjp
    exact hpre p (List.getElem?_mem hjp)
  · rw [getElem?_middle, ho]; rfl
  · intro j hj
    rcases Nat.lt_or_ge j pre.length with hlt | hge
    · rw [List.getElem?_append_left hlt, List.getElem?_append_left hlt]
    · rw [List.getElem?_append_right hge, List.getElem?_append_right hge]
      have : j - pre.length = (j - pre.length - 1) + 1 := by omega
      rw [this]
      simp

/-- C3, exercised: an event for the unknown id 3 is appended, an event for the
known id 2 replaces the second entry. -/
theorem upsert_appends_or_replaces_first_witness :
    upsert [exRuleA, exRuleB] (exEvent "UPSERT" 3 30 true) =
      [exRuleA, exRuleB] ++ [offerOf (exEvent "UPSERT" 3 30 true)] ∧
    (upsert [exRuleA, exRuleB] (exEvent "UPSERT" 2 30 false)).length = 2 :=
  ⟨(upsert_appends_or_replaces_first [exRuleA, exRuleB] (exEvent "UPSERT" 3 30 true)).1
      (by decide),
    ((upsert_appends_or_replaces_first [exRuleA, exRuleB] (exEvent "UPSERT" 2 30 false)).2
      (by decide)).1⟩

/-- C4. Distinct ids are kept: if the ids of the cache are pairwise distinct,
they still are after one rule event, and after any sequence of rule events. -/
theorem cache_ids_stay_distinct (init : List Offer) (re : RuleEvent) (evs : List RuleEvent)
    (h : DistinctIds init) :
    DistinctIds (upsert init re) ∧ DistinctIds (applyRules init evs) :=
  ⟨distinctIds_upsert init re h, distinctIds_applyRules evs init h⟩

/-- C4, exercised on a two-entry cache and three events. -/
theorem cache_ids_stay_distinct_witness :
    DistinctIds [exRuleA, exRuleB] ∧
    DistinctIds (upsert [exRuleA, exRuleB] (exEvent "UPSERT" 2 30 false)) ∧
    DistinctIds (applyRules [exRuleA, exRuleB]
      [exEvent "UPSERT" 3 30 true, exEvent "UPSERT" 1 5 true, exEvent "UPSERT" 3 40 false]) :=
  ⟨by simp [DistinctIds, exRuleA, exRuleB],
    cache_ids_stay_distinct [exRuleA, exRuleB] (exEvent "UPSERT" 2 30 false)
      [exEvent "UPSERT" 3 30 true, exEvent "UPSERT" 1 5 true, exEvent "UPSERT" 3 40 false]
      (by simp [DistinctIds, exRuleA, exRuleB])⟩

theorem matchSelect_active (offers : List Offer) (bet : BetPlaced)
    (h : 0 ≤ (matchSelect offers bet).1) :
    ∃ o, offers[(matchSelect offers bet).1.toNat]? = some o ∧ o.Active = true := by
  rcases matchSelect_cases offers bet with ⟨hr, _⟩ | ⟨k, o, hr, hk, hp, _, _⟩
  · rw [hr] at h
    exact absurd h (by decide)
  · rw [hr]
    exact ⟨o, by simpa using hk, hp.1⟩

theorem inactive_upsert (k : Int) (c : List Offer) (e : RuleEvent) (hd : DistinctIds c)
    (hc : ∀ o ∈ c, o.ID = k → o.Active = false)
    (he : e.Rule.ID = k → e.Rule.Active = false) :
    ∀ o ∈ upsert c e, o.ID = k → o.Active = false := by
  intro o ho hk
  rcases mem_upsert c e hd o ho with h | ⟨h1, _⟩
  · subst h
    exact he hk
  · exact hc o h1 hk

theorem inactive_applyRules (k : Int) (evs : List RuleEvent) :
    ∀ c : List Offer, DistinctIds c → (∀ o ∈ c, o.ID = k → o.Active = false) →
      (∀ e ∈ evs, e.Rule.ID = k → e.Rule.Active = false) →
      ∀ o ∈ applyRules c evs, o.ID = k → o.Active = false := by
  induction evs with
  | nil => intro c _ hc _; exact hc
  | cons e es ih =>
    intro c hd hc hev
    exact ih (upsert c e) (distinctIds_upsert c e hd)
      (inactive_upsert k c e hd hc (hev e (List.mem_cons_self _ _)))
      (fun e2 h2 => hev e2 (List.mem_cons_of_mem _ h2))

theorem inactive_after_deactivation (init : List Offer) (pre : List RuleEvent) (d : RuleEvent)
    (post : List RuleEvent) (hinit : DistinctIds init) (hd : d.Rule.Active = false)
    (hpost : ∀ e ∈ post, e.Rule.ID = d.Rule.ID → e.Rule.Active = false) :
    ∀ o ∈ applyRules (upsert (applyRules init pre) d) post,
      o.ID = d.Rule.ID → o.Active = false := by
  have h1 := distinctIds_applyRules pre init hinit
  refine inactive_applyRules d.Rule.ID post _ (distinctIds_upsert _ d h1) ?_ hpost
  intro o ho hk
  rcases mem_upsert _ d h1 o ho with h | ⟨_, h2⟩
  · subst h
    exact hd
  · exact absurd hk h2

/-- C5. Deactivation removes a rule from selection: start from a cache with
distinct ids, apply any rule events, then an event `d` with `active = false`,
then any events none of which has `d`'s id with `active = true`.  Against the
resulting cache, whatever the bet, the entry the loop ends on does not have
`d`'s id, and no insert and no award event handed to the writer names that id. -/
theorem deactivated_rule_never_selected (unmarshal : String → Option BetPlaced)
    (init : List Offer) (pre : List RuleEvent) (d : RuleEvent) (post : List RuleEvent)
    (hinit : DistinctIds init) (hd : d.Rule.Active = false)
    (hpost : ∀ e ∈ post, e.Rule.ID = d.Rule.ID → e.Rule.Active = false) :
    (∀ bet : BetPlaced,
      0 ≤ (matchSelect (applyRules (upsert (applyRules init pre) d) post) bet).1 →
      ∃ o, (applyRules (upsert (applyRules init pre) d) post)[(matchSelect
          (applyRules (upsert (applyRules init pre) d) post) bet).1.toNat]? = some o ∧
        o.ID ≠ d.Rule.ID) ∧
    (∀ (m : Message) (out : Outcomes),
      (∀ row ∈ insertsAttempted
          (handleMessage unmarshal (applyRules (upsert (applyRules init pre) d) post) m out),
        row.offer_id ≠ d.Rule.ID) ∧
      (∀ evt ∈ eventsWritten
          (handleMessage unmarshal (applyRules (upsert (applyRules init pre) d) post) m out),
        evt.OfferID ≠ d.Rule.ID)) := by
  have hin := inactive_after_deactivation init pre d post hinit hd hpost
  generalize applyRules (upsert (applyRules init pre) d) post = c at hin ⊢
  have hne : ∀ o ∈ c, o.Active = true → o.ID ≠ d.Rule.ID := by
    intro o ho ha hk
    rw [hin o ho hk] at ha
    exact Bool.noConfusion ha
  refine ⟨?_, ?_⟩
  · intro bet h
    obtain ⟨o, ho, ha⟩ := matchSelect_active c bet h
    exact ⟨o, ho, hne o (List.getElem?_mem ho) ha⟩
  · intro m out
    cases hdec : unmarshal m.Value with
    | none => simp [handleMessage, hdec, insertsAttempted, eventsWritten, writes]
    | some bet =>
      rcases matchSelect_cases c bet with ⟨hr, _⟩ | ⟨k, o, hr, hk, hp, hpos, _⟩
      · rw [handleMessage_none unmarshal c m out bet hdec hr]
        cases out.commitErr <;> simp [insertsAttempted, eventsWritten, writes]
      · have hid := hne o (List.getElem?_mem hk) hp.1
        refine ⟨?_, ?_⟩
        · rw [inserts_of_win unmarshal c m out bet hdec k o hr hk hpos]
          simpa using hid
        · intro evt hevt
          obtain ⟨v, hv, hve⟩ := List.mem_filterMap.1 hevt
          rw [writes_of_win unmarshal c m out bet hdec k o hr hk hpos] at hv
          cases he : out.execErr with
          | some _ => simp [he] at hv
          | none =>
            simp only [he, List.mem_singleton] at hv
            rw [hv] at hve
            have := marshal_eq_some hve
            subst this
            exact hid

set_option maxRecDepth 4000 in
/-- C5, exercised: rule 1 is deactivated, rule 2 is updated afterwards; a bet of
stake 50 is then awarded by rule 2. -/
theorem deactivated_rule_never_selected_witness :
    (DistinctIds [exRuleA, exRuleB] ∧ (exEvent "UPSERT" 1 10 false).Rule.Active = false) ∧
    (∀ row ∈ insertsAttempted
        (handleMessage (exDecode (exBet 50))
          (applyRules (upsert (applyRules [exRuleA, exRuleB] []) (exEvent "UPSERT" 1 10 false))
            [exEvent "UPSERT" 2 10 true]) exMsg (exOut "a-1")),
      row.offer_id ≠ (exEvent "UPSERT" 1 10 false).Rule.ID) ∧
    insertsAttempted
        (handleMessage (exDecode (exBet 50))
          (applyRules (upsert (applyRules [exRuleA, exRuleB] []) (exEvent "UPSERT" 1 10 false))
            [exEvent "UPSERT" 2 10 true]) exMsg (exOut "a-1")) =
      [{ id := "a-1", event_id := "e-1", user_id := "u-1", stake := F64.ofNat 50,
         bonus_amount := F64.ofNat 5, offer_id := 2 }] :=
  ⟨⟨by simp [DistinctIds, exRuleA, exRuleB], rfl⟩,
    ((deactivated_rule_never_selected (exDecode (exBet 50)) [exRuleA, exRuleB] []
      (exEvent "UPSERT" 1 10 false) [exEvent "UPSERT" 2 10 true]
      (by simp [DistinctIds, exRuleA, exRuleB]) rfl (by decide)).2 exMsg (exOut "a-1")).1,
    by decide⟩

/-- C6, as stated, fails: with two rule events buffered (fewer than the channel
holds), one pass of the loop leaves the second in the channel and out of the
cache, and a bet of stake 50 that the second rule would award gets no insert. -/
theorem drain_all_buffered_counterexample :
    exEngine.ruleCh.length ≤ ruleChCap ∧
    (iteration (exDecode (exBet 50)) exEngine (exOut "a-1")).1.ruleCh =
      [exEvent "UPSERT" 2 10 true] ∧
    (iteration (exDecode (exBet 50)) exEngine (exOut "a-1")).1.offers ≠
      applyRules exEngine.offers exEngine.ruleCh ∧
    insertsAttempted (iteration (exDecode (exBet 50)) exEngine (exOut "a-1")).2 = [] ∧
    insertsAttempted (handleMessage (exDecode (exBet 50))
      (applyRules exEngine.offers exEngine.ruleCh) exMsg (exOut "a-1")) ≠ [] := by
  set_option maxRecDepth 4000 in
  refine ⟨by decide, by decide, by decide, by decide, by decide⟩

/-- C6, amended. In one pass of the loop at most one buffered rule event is
taken: an empty channel leaves the state as it is; otherwise the oldest event
is removed and applied to the cache, and the others stay in the channel in
order.  The bet of that pass is matched against the cache so obtained. -/
theorem select_takes_oldest_event (unmarshal : String → Option BetPlaced) (st : Engine)
    (out : Outcomes) :
    (st.ruleCh = [] → (iteration unmarshal st out).1 = st) ∧
    (∀ (re : RuleEvent) (rest : List RuleEvent), st.ruleCh = re :: rest →
      (iteration unmarshal st out).1 = { offers := upsert st.offers re, ruleCh := rest }) ∧
    (∀ m : Message, out.fetch = Except.ok m →
      (iteration unmarshal st out).2 =
        handleMessage unmarshal (iteration unmarshal st out).1.offers m out) := by
  refine ⟨?_, ?_, ?_⟩
  · intro h
    unfold iteration
    cases out.fetch <;> simp [selectRule, h]
  · intro re rest h
    unfold iteration
    cases out.fetch <;> simp [selectRule, h]
  · intro m h
    simp [iteration, h]

/-- C6 amended, exercised on the state with two buffered events. -/
theorem select_takes_oldest_event_witness :
    (iteration (exDecode (exBet 50)) exEngine (exOut "a-1")).1 =
      { offers := upsert exEngine.offers (exEvent "UPSERT" 1 100 true),
        ruleCh := [exEvent "UPSERT" 2 10 true] } :=
  (select_takes_oldest_event (exDecode (exBet 50)) exEngine (exOut "a-1")).2.1
    (exEvent "UPSERT" 1 100 true) [exEvent "UPSERT" 2 10 true] rfl

/-- C7. For a fetched message the pass makes exactly one commit, of that
message; no insert, write to the award stream or commit comes after it and no
commit before it; when the payload does not decode the pass only logs and
commits (no insert, no write); and the pass ends in the state the next pass
starts from. -/
theorem commit_once_after_effects (unmarshal : String → Option BetPlaced) (st : Engine)
    (out : Outcomes) (m : Message) (hf : out.fetch = Except.ok m) :
    commits (iteration unmarshal st out).2 = [m] ∧
    (∃ pre post, (iteration unmarshal st out).2 = pre ++ Effect.commitMessages m :: post ∧
      commits pre = [] ∧ commits post = [] ∧ insertsAttempted post = [] ∧
      writes post = []) ∧
    (unmarshal m.Value = none →
      (iteration unmarshal st out).2 =
        [Effect.logPrintf "bet unmarshal", Effect.commitMessages m] ∧
      insertsAttempted (iteration unmarshal st out).2 = [] ∧
      writes (iteration unmarshal st out).2 = []) ∧
    (iteration unmarshal st out).1 = selectRule st := by
  have hit : iteration unmarshal st out =
      (selectRule st, handleMessage unmarshal (selectRule st).offers m out) := by
    simp [iteration, hf]
  rw [hit]
  generalize (selectRule st).offers = offers
  cases hdec : unmarshal m.Value with
  | none =>
    have htr : handleMessage unmarshal offers m out =
        [Effect.logPrintf "bet unmarshal", Effect.commitMessages m] := by
      simp [handleMessage, hdec]
    simp only [htr]
    refine ⟨by simp [commits], ⟨[Effect.logPrintf "bet unmarshal"], [], ?_⟩, ?_, trivial⟩
    · simp [commits, insertsAttempted, writes]
    · intro _
      simp [insertsAttempted, writes]
  | some bet =>
    rcases matchSelect_cases offers bet with ⟨hr, _⟩ | ⟨k, o, hr, hk, _, hpos, _⟩
    · simp only [handleMessage_none unmarshal offers m out bet hdec hr]
      refine ⟨?_, ⟨[], _, rfl, ?_⟩, ?_, trivial⟩
      · cases out.commitErr <;> simp [commits]
      · cases out.commitErr <;> simp [commits, insertsAttempted, writes]
      · intro h
        exact absurd h (by simp)
    · simp only [handleMessage_some unmarshal offers m out bet hdec k o hr hk hpos]
      refine ⟨?_, ⟨_, _, (List.cons_append _ _ _).symm, ?_⟩, ?_, trivial⟩
      · cases out.execErr <;> cases out.writeErr <;> cases out.commitErr <;> simp [commits]
      · cases out.execErr <;> cases out.writeErr <;> cases out.commitErr <;>
          simp [commits, insertsAttempted, writes]
      · intro h
        exact absurd h (by simp)

set_option maxRecDepth 4000 in
/-- C7, exercised: an awarded bet is inserted, published and then committed. -/
theorem commit_once_after_effects_witness :
    (exOut "a-1").fetch = Except.ok exMsg ∧
    commits (iteration (exDecode (exBet 50)) { offers := [exRule10], ruleCh := [] }
      (exOut "a-1")).2 = [exMsg] :=
  ⟨rfl, (commit_once_after_effects (exDecode (exBet 50)) { offers := [exRule10], ruleCh := [] }
    (exOut "a-1") exMsg rfl).1⟩

/-- C8, as stated, fails.  With a winning rule and an insert that returns no
error, no award event is published when `writer.WriteMessages` returns an error
(stake 50, rule `{1, 10, 0.10}`); and for the stake `1e308` against the same
rule the bonus is `+Inf`, `json.Marshal` fails, and the one message written is
empty although every call returns without error. -/
theorem publish_iff_insert_ok_counterexample :
    (0 ≤ (matchSelect [exRule10] (exBet 50)).1 ∧
      (exOutWriteFails "a-1").execErr = none ∧
      published (exOutWriteFails "a-1")
        (handleMessage (exDecode (exBet 50)) [exRule10] exMsg (exOutWriteFails "a-1")) = []) ∧
    (0 ≤ (matchSelect [exRule10] exBetHuge).1 ∧
      (matchSelect [exRule10] exBetHuge).2 = F64.inf false ∧
      (exOut "a-1").execErr = none ∧ (exOut "a-1").writeErr = none ∧
      writes (handleMessage (exDecode exBetHuge) [exRule10] exMsg (exOut "a-1")) = [none] ∧
      published (exOut "a-1")
        (handleMessage (exDecode exBetHuge) [exRule10] exMsg (exOut "a-1")) = []) := by
  set_option maxRecDepth 20000 in
  set_option exponentiation.threshold 2000 in
  refine ⟨⟨by decide, rfl, by decide⟩, ⟨by decide, by decide, rfl, rfl, by decide, by decide⟩⟩

/-- C8, amended. Award sink: for a decoded bet with a winning rule
(`bestIdx >= 0`, and then `bestAmt > 0` as well) the insert is called exactly
once, and a message is handed to the writer iff the insert returned no error.
On an insert error nothing is written or published.  Without one exactly one
message is written; when the stake and the bonus are finite it is the award
event whose `awardId` is the id passed to the insert and whose `eventId`,
`userId` and `stake` are the bet's, and that event is published if the write
returns no error and not published if the write returns an error. -/
theorem award_sink_writes_iff_insert_ok (unmarshal : String → Option BetPlaced)
    (offers : List Offer) (m : Message) (out : Outcomes) (bet : BetPlaced)
    (hdec : unmarshal m.Value = some bet)
    (hidx : 0 ≤ (matchSelect offers bet).1) :
    F64.gt (matchSelect offers bet).2 F64.zero = true ∧
    (writes (handleMessage unmarshal offers m out) ≠ [] ↔ out.execErr = none) ∧
    (∃ row, insertsAttempted (handleMessage unmarshal offers m out) = [row] ∧
      row.event_id = bet.EventID ∧
      (out.execErr ≠ none →
        writes (handleMessage unmarshal offers m out) = [] ∧
        published out (handleMessage unmarshal offers m out) = []) ∧
      (out.execErr = none →
        (writes (handleMessage unmarshal offers m out)).length = 1 ∧
        (bet.Stake.isFinite = true → (matchSelect offers bet).2.isFinite = true →
          ∃ evt, writes (handleMessage unmarshal offers m out) = [some evt] ∧
            evt.AwardID = row.id ∧ evt.EventID = bet.EventID ∧ evt.UserID = bet.UserID ∧
            evt.Stake = bet.Stake ∧
            (out.writeErr = none →
              published out (handleMessage unmarshal offers m out) = [evt]) ∧
            (out.writeErr ≠ none →
              published out (handleMessage unmarshal offers m out) = [])))) := by
  rcases matchSelect_cases offers bet with ⟨hr, _⟩ | ⟨k, o, hr, hk, _, hpos, _⟩
  · rw [hr] at hidx
    exact absurd hidx (by decide)
  · have hw := writes_of_win unmarshal offers m out bet hdec k o hr hk hpos
    have hi := inserts_of_win unmarshal offers m out bet hdec k o hr hk hpos
    rw [hr]
    refine ⟨hpos, ?_, _, hi, rfl, ?_, ?_⟩
    · rw [hw]
      cases out.execErr <;> simp
    · intro he
      cases hx : out.execErr with
      | none => exact absurd hx he
      | some _ =>
        simp only [published, eventsWritten, hw, hx]
        cases out.writeErr <;> simp
    · intro he
      refine ⟨by simp [hw, he], ?_⟩
      intro hs hb
      have hm := marshal_of_finite
        { AwardID := out.awardID, EventID := bet.EventID, UserID := bet.UserID,
          OfferID := o.ID, Stake := bet.Stake, BonusAmount := bonusOf bet.Stake o,
          Ts := out.now } hs hb
      refine ⟨_, by rw [hw, he, hm], rfl, rfl, rfl, rfl, ?_, ?_⟩
      · intro hwe
        simp [published, eventsWritten, hw, he, hm, hwe]
      · intro hwe
        cases hy : out.writeErr with
        | none => exact absurd hy hwe
        | some _ => simp [published, hy]

set_option maxRecDepth 4000 in
/-- C8 amended, exercised: stake 50 against rule `{1, 10, 0.10}` with every call
succeeding writes one message. -/
theorem award_sink_writes_iff_insert_ok_witness :
    0 ≤ (matchSelect [exRule10] (exBet 50)).1 ∧
    (writes (handleMessage (exDecode (exBet 50)) [exRule10] exMsg (exOut "a-1")) ≠ [] ↔
      (exOut "a-1").execErr = none) ∧
    published (exOut "a-1")
        (handleMessage (exDecode (exBet 50)) [exRule10] exMsg (exOut "a-1")) =
      [{ AwardID := "a-1", EventID := "e-1", UserID := "u-1", OfferID := 1,
         Stake := F64.ofNat 50, BonusAmount := F64.ofNat 5, Ts := 0 }] :=
  ⟨by decide,
    (award_sink_writes_iff_insert_ok (exDecode (exBet 50)) [exRule10] exMsg (exOut "a-1")
      (exBet 50) rfl (by decide)).2.1,
    by decide⟩

/-! ## Award store -/

theorem insertAwardIfAbsent_nodup (store : List AwardRow) (row : AwardRow)
    (h : (store.map AwardRow.event_id).Nodup) :
    ((insertAwardIfAbsent store row).map AwardRow.event_id).Nodup := by
  unfold insertAwardIfAbsent
  split
  · exact h
  · rename_i hany
    rw [List.map_append]
    refine List.Nodup.append h (List.nodup_singleton _) ?_
    simp only [List.map_cons, List.map_nil, List.disjoint_singleton]
    intro hmem
    obtain ⟨r, hr, he⟩ := List.mem_map.1 hmem
    exact hany (List.any_eq_true.2 ⟨r, hr, by simpa using he⟩)

theorem storeAfter_nodup (out : Outcomes) (tr : List Effect) :
    ∀ store : List AwardRow, (store.map AwardRow.event_id).Nodup →
      ((storeAfter out store tr).map AwardRow.event_id).Nodup := by
  induction tr with
  | nil => intro store h; exact h
  | cons e rest ih =>
    intro store h
    cases e with
    | dbExec a ev u s b o =>
      simp only [storeAfter]
      cases out.execErr with
      | some _ => exact ih store h
      | none => exact ih _ (insertAwardIfAbsent_nodup store _ h)
    | writeMessages evt => exact ih store h
    | commitMessages m => exact ih store h
    | logPrintf w => exact ih store h
    | sleep => exact ih store h
    | indexOutOfRange => exact ih store h

theorem deliverAll_nodup (unmarshal : String → Option BetPlaced) (ds : List Delivery) :
    ∀ w : List AwardRow × List Effect, (w.1.map AwardRow.event_id).Nodup →
      (((ds.foldl (deliver unmarshal) w).1).map AwardRow.event_id).Nodup := by
  induction ds with
  | nil => intro w h; exact h
  | cons d rest ih =>
    intro w h
    exact ih _ (storeAfter_nodup d.out _ w.1 h)

theorem writes_append (a b : List Effect) : writes (a ++ b) = writes a ++ writes b := by
  induction a with
  | nil => rfl
  | cons e rest ih => cases e <;> simp [writes, ih]

/-- C9, as stated, fails.  The same awardable bet is delivered twice into an
empty store.  When the insert of the first delivery returns an error, the row
left is the one of the second delivery and one award event is published, not
two; and for the stake `1e308` (bonus `+Inf`), with every call returning
without error, both messages written are empty and no award event is
published. -/
theorem redelivery_counterexample :
    ((deliverAll (exDecode (exBet 50)) [] exRedeliveryExecFails).1.map AwardRow.id = ["a-2"] ∧
      (publishedAll (exDecode (exBet 50)) exRedeliveryExecFails).map AwardEvent.AwardID =
        ["a-2"]) ∧
    (0 ≤ (matchSelect [exRule10] exBetHuge).1 ∧
      writes (deliverAll (exDecode exBetHuge) [] exRedelivery).2 = [none, none] ∧
      publishedAll (exDecode exBetHuge) exRedelivery = []) := by
  set_option maxRecDepth 20000 in
  set_option exponentiation.threshold 2000 in
  refine ⟨⟨by decide, by decide⟩, ⟨by decide, by decide, by decide⟩⟩

/-- C9, amended. Idempotent durable award: if the store holds at most one row
per `event_id`, it still does after any sequence of deliveries.  And when the
same message, decoding to a bet with a winning rule, is delivered twice against
the same cache, both inserts returning no error and the store holding no row
for the bet's `eventId` before, then afterwards the store holds exactly one row
for that `eventId`, the one with the first delivery's award id, and two
messages have been written; when the stake and the bonus are finite these are
two award events with that `eventId`, and both are published when both writes
return no error. -/
theorem redelivery_keeps_first_row (unmarshal : String → Option BetPlaced)
    (store : List AwardRow) (ds : List Delivery)
    (h0 : (store.map AwardRow.event_id).Nodup) :
    ((deliverAll unmarshal store ds).1.map AwardRow.event_id).Nodup ∧
    ∀ (offers : List Offer) (m : Message) (out1 out2 : Outcomes) (bet : BetPlaced),
      unmarshal m.Value = some bet → 0 ≤ (matchSelect offers bet).1 →
      out1.execErr = none → out2.execErr = none →
      (∀ r ∈ store, r.event_id ≠ bet.EventID) →
      ∃ row : AwardRow,
        (deliverAll unmarshal store
          [{ offers := offers, m := m, out := out1 },
           { offers := offers, m := m, out := out2 }]).1 = store ++ [row] ∧
        row.event_id = bet.EventID ∧ row.id = out1.awardID ∧
        (deliverAll unmarshal store
          [{ offers := offers, m := m, out := out1 },
           { offers := offers, m := m, out := out2 }]).1.filter
            (fun r => r.event_id == bet.EventID) = [row] ∧
        (writes (deliverAll unmarshal store
          [{ offers := offers, m := m, out := out1 },
           { offers := offers, m := m, out := out2 }]).2).length = 2 ∧
        (bet.Stake.isFinite = true → (matchSelect offers bet).2.isFinite = true →
          ∃ e1 e2 : AwardEvent,
            writes (deliverAll unmarshal store
              [{ offers := offers, m := m, out := out1 },
               { offers := offers, m := m, out := out2 }]).2 = [some e1, some e2] ∧
            e1.EventID = bet.EventID ∧ e2.EventID = bet.EventID ∧
            e1.AwardID = out1.awardID ∧ e2.AwardID = out2.awardID ∧
            (out1.writeErr = none → out2.writeErr = none →
              publishedAll unmarshal
                [{ offers := offers, m := m, out := out1 },
                 { offers := offers, m := m, out := out2 }] = [e1, e2])) := by
  refine ⟨deliverAll_nodup unmarshal ds (store, []) h0, ?_⟩
  intro offers m out1 out2 bet hdec hidx he1 he2 hfresh
  rcases matchSelect_cases offers bet with ⟨hr, _⟩ | ⟨k, o, hr, hk, _, hpos, _⟩
  · rw [hr] at hidx
    exact absurd hidx (by decide)
  · have hany : store.any (fun r => r.event_id == bet.EventID) = false := by
      rw [List.any_eq_false]
      intro r hr2
      simpa using hfresh r hr2
    have hfil : store.filter (fun r => r.event_id == bet.EventID) = [] := by
      rw [List.filter_eq_nil_iff]
      intro r hr2
      simpa using hfresh r hr2
    have hw1 := writes_of_win unmarshal offers m out1 bet hdec k o hr hk hpos
    have hw2 := writes_of_win unmarshal offers m out2 bet hdec k o hr hk hpos
    rw [he1] at hw1
    rw [he2] at hw2
    have hstore : (deliverAll unmarshal store
          [{ offers := offers, m := m, out := out1 },
           { offers := offers, m := m, out := out2 }]).1 =
        store ++ [{ id := out1.awardID, event_id := bet.EventID, user_id := bet.UserID,
                    stake := bet.Stake, bonus_amount := bonusOf bet.Stake o,
                    offer_id := o.ID }] := by
      simp only [deliverAll, List.foldl, deliver,
        storeAfter_of_win unmarshal offers m _ bet hdec k o hr hk hpos, he1, he2]
      simp [insertAwardIfAbsent, hany]
    have htrace : writes (deliverAll unmarshal store
          [{ offers := offers, m := m, out := out1 },
           { offers := offers, m := m, out := out2 }]).2 =
        [marshal
          { AwardID := out1.awardID, EventID := bet.EventID, UserID := bet.UserID,
            OfferID := o.ID, Stake := bet.Stake, BonusAmount := bonusOf bet.Stake o,
            Ts := out1.now },
         marshal
          { AwardID := out2.awardID, EventID := bet.EventID, UserID := bet.UserID,
            OfferID := o.ID, Stake := bet.Stake, BonusAmount := bonusOf bet.Stake o,
            Ts := out2.now }] := by
      simp only [deliverAll, List.foldl, deliver, List.nil_append, writes_append, hw1, hw2]
      rfl
    refine ⟨_, hstore, rfl, rfl, ?_, ?_, ?_⟩
    · rw [hstore, List.filter_append, hfil]
      simp
    · rw [htrace]
      rfl
    · intro hs hb
      rw [hr] at hb
      have hm1 := marshal_of_finite
        { AwardID := out1.awardID, EventID := bet.EventID, UserID := bet.UserID,
          OfferID := o.ID, Stake := bet.Stake, BonusAmount := bonusOf bet.Stake o,
          Ts := out1.now } hs hb
      have hm2 := marshal_of_finite
        { AwardID := out2.awardID, EventID := bet.EventID, UserID := bet.UserID,
          OfferID := o.ID, Stake := bet.Stake, BonusAmount := bonusOf bet.Stake o,
          Ts := out2.now } hs hb
      refine ⟨_, _, by rw [htrace, hm1, hm2], rfl, rfl, rfl, rfl, ?_⟩
      intro hwe1 hwe2
      simp [publishedAll, published, eventsWritten, hw1, hw2, hm1, hm2, hwe1, hwe2]

set_option maxRecDepth 4000 in
/-- C9 amended, exercised: the same bet delivered twice into an empty store,
every call succeeding, leaves the row of the first delivery and publishes two
events. -/
theorem redelivery_keeps_first_row_witness :
    (([] : List AwardRow).map AwardRow.event_id).Nodup ∧
    ((deliverAll (exDecode (exBet 50)) [] exRedelivery).1.map AwardRow.event_id).Nodup ∧
    (deliverAll (exDecode (exBet 50)) [] exRedelivery).1 =
      [{ id := "a-1", event_id := "e-1", user_id := "u-1", stake := F64.ofNat 50,
         bonus_amount := F64.ofNat 5, offer_id := 1 }] ∧
    (publishedAll (exDecode (exBet 50)) exRedelivery).map AwardEvent.AwardID =
      ["a-1", "a-2"] ∧
    (publishedAll (exDecode (exBet 50)) exRedelivery).map AwardEvent.EventID =
      ["e-1", "e-1"] :=
  ⟨List.nodup_nil,
    (redelivery_keeps_first_row (exDecode (exBet 50)) [] exRedelivery List.nodup_nil).1,
    by decide, by decide, by decide⟩

/-! ## The `type` field -/

theorem upsertLoop_congr (e1 e2 : RuleEvent) (h : e1.Rule = e2.Rule) (offers : List Offer) :
    upsertLoop e1 offers = upsertLoop e2 offers := by
  induction offers with
  | nil => rfl
  | cons o os ih => simp only [upsertLoop, ih, h]

/-- C10. The cache effect of a rule event does not depend on its `type`: two
events with the same `rule` (id, minStake, bonusPct, active) give the same
cache, whatever their `type` fields, and this cache is the one the event of
type "UPSERT" for that rule gives; so does the `select` step of the loop. -/
theorem upsert_ignores_type (offers : List Offer) (e1 e2 : RuleEvent) (rest : List RuleEvent)
    (h : e1.Rule = e2.Rule) :
    upsert offers e1 = upsert offers e2 ∧
    upsert offers e1 = upsert offers { Typ := "UPSERT", Rule := e1.Rule } ∧
    selectRule { offers := offers, ruleCh := e1 :: rest } =
      selectRule { offers := offers, ruleCh := e2 :: rest } := by
  have key : ∀ a b : RuleEvent, a.Rule = b.Rule → upsert offers a = upsert offers b := by
    intro a b hab
    simp only [upsert, upsertLoop_congr a b hab offers, hab]
  refine ⟨key e1 e2 h, key e1 _ rfl, ?_⟩
  simp only [selectRule, key e1 e2 h]

/-- C10, exercised: a "DELETE" event and an event with an empty type act as the
"UPSERT" one does: rule 1 is updated in place. -/
theorem upsert_ignores_type_witness :
    (exEvent "DELETE" 1 30 false).Rule = (exEvent "" 1 30 false).Rule ∧
    upsert [exRuleA, exRuleB] (exEvent "DELETE" 1 30 false) =
      upsert [exRuleA, exRuleB] (exEvent "" 1 30 false) ∧
    upsert [exRuleA, exRuleB] (exEvent "DELETE" 1 30 false) =
      upsert [exRuleA, exRuleB] (exEvent "UPSERT" 1 30 false) :=
  ⟨rfl, (upsert_ignores_type [exRuleA, exRuleB] (exEvent "DELETE" 1 30 false)
      (exEvent "" 1 30 false) [] rfl).1,
    (upsert_ignores_type [exRuleA, exRuleB] (exEvent "DELETE" 1 30 false)
      (exEvent "" 1 30 false) [] rfl).2.1⟩

/-! ## Where the hypotheses on NaN are needed -/

/-- Why C1 and C2 ask for numbers: against a `minStake` that is NaN the test of
line 151 lets an active rule through (`stake < NaN` is false), although
`stake >= NaN` is false as well; `encoding/json` never decodes such a value. -/
theorem nan_minStake_passes_test :
    Passes (F64.ofNat 50)
      { ID := 1, MinStake := F64.nan, BonusPct := F64.ofNat 1, Active := true } ∧
    F64.ge (F64.ofNat 50) F64.nan = false := by
  refine ⟨⟨rfl, by decide⟩, by decide⟩
